import Mathlib

/-!
Verification of the `expcat-skills` installer
(`src/skills-installer/bin/expcat-skills.js`).

The JavaScript program is shallowly embedded: JS strings are modelled as
`List Char` (`JStr`), filesystem paths touched by symlink resolution as
segment lists, interactive answers and subprocess outcomes as explicit
parameters, and stateful code as pure functions returning explicit
effect traces.  Each definition mirrors one source function and keeps
its name.
-/

/-- A JavaScript string, modelled as its list of characters. -/
abbrev JStr := List Char

/-- Shorthand turning a Lean string literal into the character-list model. -/
def jstr (s : String) : JStr := s.toList

/-- JS `String.prototype.split(sep)` for a single-character separator:
`"".split` is `[""]`, separators at the ends produce empty pieces. -/
def splitOnChar (sep : Char) : JStr → List JStr
  | [] => [[]]
  | c :: cs =>
    if c = sep then [] :: splitOnChar sep cs
    else (c :: (splitOnChar sep cs).headD []) :: (splitOnChar sep cs).tail

/-- JS `Array.prototype.join(sep)` for a single-character separator:
`[].join` is `""`. -/
def joinChar (sep : Char) : List JStr → JStr
  | [] => []
  | [p] => p
  | p :: q :: ps => p ++ sep :: joinChar sep (q :: ps)

/-- `str.replace(/^https?:\/\/github\.com\//, '')`: strip a leading
`http://github.com/` or `https://github.com/`. -/
def stripUrlHost (l : JStr) : JStr :=
  if (jstr "https://github.com/").isPrefixOf l then
    l.drop (jstr "https://github.com/").length
  else if (jstr "http://github.com/").isPrefixOf l then
    l.drop (jstr "http://github.com/").length
  else l

/-- `str.replace(/^github\.com\//, '')`: strip a leading `github.com/`. -/
def stripBareHost (l : JStr) : JStr :=
  if (jstr "github.com/").isPrefixOf l then
    l.drop (jstr "github.com/").length
  else l

/-- `str.replace(/\.git$/, '')`: strip a trailing `.git`. -/
def stripGitSuffix (l : JStr) : JStr :=
  if (jstr ".git").isSuffixOf l then l.take (l.length - 4) else l

/-- `normalizeGithubInput` from the source: the three `replace` calls in
their source order. -/
def normalizeGithubInput (l : JStr) : JStr :=
  stripGitSuffix (stripBareHost (stripUrlHost l))

/-- The `[^\s]+` part of the regex in `getDefaultBranch`: the maximal run
of non-whitespace characters at the front. -/
def takeNonSpace (l : JStr) : JStr :=
  l.takeWhile (fun c => !c.isWhitespace)

/-- Leftmost match of the regex `ref: refs\/heads\/([^\s]+)` used by
`getDefaultBranch`: scan for the literal `ref: refs/heads/` followed by at
least one non-whitespace character and return the captured group. -/
def findHeadsRef : JStr → Option JStr
  | [] => none
  | c :: cs =>
    if (jstr "ref: refs/heads/").isPrefixOf (c :: cs) then
      if takeNonSpace ((c :: cs).drop (jstr "ref: refs/heads/").length) = [] then
        findHeadsRef cs
      else some (takeNonSpace ((c :: cs).drop (jstr "ref: refs/heads/").length))
    else findHeadsRef cs

/-- Outcome of one `spawnSync` call: exit status and captured stdout. -/
structure SpawnResult where
  status : Int
  stdout : JStr
deriving DecidableEq, Repr

/-- `getDefaultBranch` from the source, with the `git ls-remote --symref`
subprocess outcome passed in as `res`: on exit status 0 and a regex match
the captured branch name is returned, otherwise `"main"`. -/
def getDefaultBranch (res : SpawnResult) : JStr :=
  if res.status = 0 then
    match findHeadsRef res.stdout with
    | some name => name
    | none => jstr "main"
  else jstr "main"

/-- The `{owner, repo, ref, subpath}` record produced by `parseGithubParts`. -/
structure GithubLocation where
  owner : JStr
  repo : JStr
  ref : JStr
  subpath : JStr
deriving DecidableEq, Repr

/-- `parseGithubParts` from the source.  `remote` is the outcome the
`git ls-remote` subprocess would report if `getDefaultBranch` is reached.
`none` models the fatal `process.exit(1)` on a missing owner or repo. -/
def parseGithubParts (remote : SpawnResult) (input : JStr) : Option GithubLocation :=
  let normalized := normalizeGithubInput input
  let pieces := splitOnChar '/' normalized
  let owner := pieces.getD 0 []
  let repo := pieces.getD 1 []
  if owner = [] ∨ repo = [] then none
  else
    let refSub :=
      match pieces.findIdx? (fun p => p = jstr "tree") with
      | some t =>
        if pieces.length > t + 1 then
          (pieces.getD (t + 1) [], joinChar '/' (pieces.drop (t + 2)))
        else ([], joinChar '/' (pieces.drop 2))
      | none => ([], joinChar '/' (pieces.drop 2))
    let ref := if refSub.1 = [] then getDefaultBranch remote else refSub.1
    some ⟨owner, repo, ref, refSub.2⟩

lemma findHeadsRef_some_ne_nil {l name : JStr} (h : findHeadsRef l = some name) :
    name ≠ [] := by
  induction l with
  | nil => simp [findHeadsRef] at h
  | cons c cs ih =>
    rw [findHeadsRef] at h
    split at h
    · split at h
      · exact ih h
      · rename_i hne
        cases h
        exact hne
    · exact ih h

lemma findIdx?_eq_none_of_not_mem {x : JStr} {l : List JStr} (h : x ∉ l) :
    l.findIdx? (fun p => p = x) = none := by
  simp only [List.findIdx?_eq_none_iff]
  intro y hy
  exact decide_eq_false (fun hyx => h (hyx ▸ hy))

lemma getDefaultBranch_ne_nil (res : SpawnResult) : getDefaultBranch res ≠ [] := by
  unfold getDefaultBranch
  split
  · cases hf : findHeadsRef res.stdout with
    | none => simp [hf, jstr]
    | some name => simp [hf, findHeadsRef_some_ne_nil hf]
  · simp [jstr]

/-- C3: for a successfully parsed input with no `tree` segment, `ref` is
exactly what `getDefaultBranch` returns for the remote's symbolic-HEAD
query: the captured branch name when the query exits 0 and its output
matches `ref: refs/heads/<name>`, `"main"` on failure or malformed
output, and never the empty (undefined) string. -/
theorem parse_ref_defaultBranch (remote : SpawnResult) (input : JStr)
    (loc : GithubLocation)
    (hp : parseGithubParts remote input = some loc)
    (ht : jstr "tree" ∉ splitOnChar '/' (normalizeGithubInput input)) :
    loc.ref = getDefaultBranch remote ∧
    (∀ name, remote.status = 0 → findHeadsRef remote.stdout = some name →
      loc.ref = name) ∧
    ((remote.status ≠ 0 ∨ findHeadsRef remote.stdout = none) →
      loc.ref = jstr "main") ∧
    loc.ref ≠ [] := by
  have hnone := findIdx?_eq_none_of_not_mem ht
  simp only [parseGithubParts, hnone] at hp
  split at hp
  · exact absurd hp (by simp)
  · rw [Option.some_inj] at hp
    subst hp
    refine ⟨by simp, ?_, ?_, by simpa using getDefaultBranch_ne_nil remote⟩
    · intro name hst hf
      simp [getDefaultBranch, hst, hf]
    · intro hfail
      rcases hfail with hst | hf
      · simp [getDefaultBranch, hst]
      · simp only [if_true, eq_self_iff_true]
        unfold getDefaultBranch
        split
        · simp [hf]
        · rfl

/-- Witness for `parse_ref_defaultBranch` at a concrete remote answer and
input `owner/repo`. -/
theorem parse_ref_defaultBranch_witness :
    parseGithubParts ⟨0, jstr "ref: refs/heads/dev\tHEAD"⟩ (jstr "owner/repo") =
      some ⟨jstr "owner", jstr "repo", jstr "dev", []⟩ ∧
    ((⟨jstr "owner", jstr "repo", jstr "dev", []⟩ : GithubLocation).ref =
        getDefaultBranch ⟨0, jstr "ref: refs/heads/dev\tHEAD"⟩ ∧
      (∀ name, (0 : Int) = 0 →
        findHeadsRef (jstr "ref: refs/heads/dev\tHEAD") = some name →
        (⟨jstr "owner", jstr "repo", jstr "dev", []⟩ : GithubLocation).ref = name) ∧
      (((0 : Int) ≠ 0 ∨ findHeadsRef (jstr "ref: refs/heads/dev\tHEAD") = none) →
        (⟨jstr "owner", jstr "repo", jstr "dev", []⟩ : GithubLocation).ref = jstr "main") ∧
      (⟨jstr "owner", jstr "repo", jstr "dev", []⟩ : GithubLocation).ref ≠ []) :=
  ⟨by decide,
    parse_ref_defaultBranch ⟨0, jstr "ref: refs/heads/dev\tHEAD"⟩
      (jstr "owner/repo") ⟨jstr "owner", jstr "repo", jstr "dev", []⟩
      (by decide) (by decide)⟩

/-- C8: the parser sends `"owner/repo/tree/main/skills/foo"` to exactly
`{owner: "owner", repo: "repo", ref: "main", subpath: "skills/foo"}`,
for every possible remote answer (the remote is never queried since the
`tree` segment fixes `ref`). -/
theorem parse_tree_scenario (remote : SpawnResult) :
    parseGithubParts remote (jstr "owner/repo/tree/main/skills/foo") =
      some ⟨jstr "owner", jstr "repo", jstr "main", jstr "skills/foo"⟩ := rfl

lemma splitOnChar_ne_nil (sep : Char) (l : JStr) : splitOnChar sep l ≠ [] := by
  cases l with
  | nil => simp [splitOnChar]
  | cons c cs =>
    rw [splitOnChar]
    split <;> simp

lemma mem_splitOnChar_not_sep {sep : Char} {l : JStr} :
    ∀ p ∈ splitOnChar sep l, sep ∉ p := by
  induction l with
  | nil =>
    intro p hp
    simp only [splitOnChar, List.mem_singleton] at hp
    simp [hp]
  | cons c cs ih =>
    intro p hp
    rw [splitOnChar] at hp
    by_cases hc : c = sep
    · rw [if_pos hc] at hp
      rcases List.mem_cons.mp hp with hp0 | hp1
      · simp [hp0]
      · exact ih p hp1
    · rw [if_neg hc] at hp
      cases h : splitOnChar sep cs with
      | nil => exact absurd h (splitOnChar_ne_nil sep cs)
      | cons q qs =>
        rw [h] at hp
        simp only [List.headD_cons, List.tail_cons] at hp
        rcases List.mem_cons.mp hp with hp0 | hp1
        · subst hp0
          intro hm
          rcases List.mem_cons.mp hm with hs | hs
          · exact hc hs.symm
          · exact ih q (h ▸ List.mem_cons_self q qs) hs
        · exact ih p (h ▸ List.mem_cons_of_mem q hp1)

lemma splitOnChar_append_cons {sep : Char} {a : JStr} (b : JStr) (ha : sep ∉ a) :
    splitOnChar sep (a ++ sep :: b) = a :: splitOnChar sep b := by
  induction a with
  | nil =>
    rw [List.nil_append, splitOnChar, if_pos rfl]
  | cons c a2 ih =>
    have hc : ¬(c = sep) := fun hcs => ha (hcs ▸ List.mem_cons_self c a2)
    have ha2 : sep ∉ a2 := fun hm => ha (List.mem_cons_of_mem c hm)
    rw [List.cons_append, splitOnChar, ih ha2, if_neg hc]
    simp

lemma splitOnChar_sep_free {sep : Char} {a : JStr} (ha : sep ∉ a) :
    splitOnChar sep a = [a] := by
  induction a with
  | nil => rfl
  | cons c a2 ih =>
    have hc : ¬(c = sep) := fun hcs => ha (hcs ▸ List.mem_cons_self c a2)
    have ha2 : sep ∉ a2 := fun hm => ha (List.mem_cons_of_mem c hm)
    rw [splitOnChar, ih ha2, if_neg hc]
    simp

lemma joinChar_splitOnChar (sep : Char) (l : JStr) :
    joinChar sep (splitOnChar sep l) = l := by
  induction l with
  | nil => rfl
  | cons c cs ih =>
    rw [splitOnChar]
    by_cases hc : c = sep
    · rw [if_pos hc]
      cases h : splitOnChar sep cs with
      | nil => exact absurd h (splitOnChar_ne_nil sep cs)
      | cons q qs =>
        rw [h] at ih
        rw [joinChar, List.nil_append, ih, hc]
    · rw [if_neg hc]
      cases h : splitOnChar sep cs with
      | nil => exact absurd h (splitOnChar_ne_nil sep cs)
      | cons q qs =>
        rw [h] at ih
        simp only [List.headD_cons, List.tail_cons]
        cases qs with
        | nil => rw [joinChar, ← ih, joinChar]
        | cons q2 qs2 =>
          rw [joinChar, ← ih, joinChar, List.cons_append]

lemma slash_free_cons_eq {sep : Char} {a a' b b' : JStr}
    (ha : sep ∉ a) (ha' : sep ∉ a')
    (h : a ++ sep :: b = a' ++ sep :: b') : a = a' ∧ b = b' := by
  induction a generalizing a' with
  | nil =>
    cases a' with
    | nil => simpa using h
    | cons c' a2' =>
      rw [List.nil_append, List.cons_append, List.cons_eq_cons] at h
      exact absurd (h.1 ▸ List.mem_cons_self c' a2') ha'
  | cons c a2 ih =>
    cases a' with
    | nil =>
      rw [List.cons_append, List.nil_append, List.cons_eq_cons] at h
      exact absurd (h.1.symm ▸ List.mem_cons_self c a2) ha
    | cons c' a2' =>
      rw [List.cons_append, List.cons_append, List.cons_eq_cons] at h
      have ha2 : sep ∉ a2 := fun hm => ha (List.mem_cons_of_mem c hm)
      have ha2' : sep ∉ a2' := fun hm => ha' (List.mem_cons_of_mem c' hm)
      obtain ⟨he, hb⟩ := ih ha2 ha2' h.2
      exact ⟨by rw [h.1, he], hb⟩

/-- The normalized `tree`-form re-join of a parse result, as described by
the spec: `owner/repo/tree/<ref>[/<subpath>]`. -/
def rejoinLocation (loc : GithubLocation) : JStr :=
  loc.owner ++ '/' :: (loc.repo ++ '/' :: (jstr "tree" ++ '/' :: (loc.ref ++
    (if loc.subpath = [] then [] else '/' :: loc.subpath))))

/-- C4 counterexample: for the input `"a/tree/b"` (a repository literally
named `tree`) the first parse yields
`{owner:"a", repo:"tree", ref:"b", subpath:""}`, but re-parsing its
`tree`-form re-join `"a/tree/tree/b"` yields
`{owner:"a", repo:"tree", ref:"tree", subpath:"b"}` — not the same. -/
theorem parse_rejoin_not_idempotent :
    parseGithubParts ⟨1, []⟩ (jstr "a/tree/b") =
      some ⟨jstr "a", jstr "tree", jstr "b", []⟩ ∧
    rejoinLocation ⟨jstr "a", jstr "tree", jstr "b", []⟩ =
      jstr "a/tree/tree/b" ∧
    parseGithubParts ⟨1, []⟩ (jstr "a/tree/tree/b") =
      some ⟨jstr "a", jstr "tree", jstr "tree", jstr "b"⟩ ∧
    (⟨jstr "a", jstr "tree", jstr "tree", jstr "b"⟩ : GithubLocation) ≠
      ⟨jstr "a", jstr "tree", jstr "b", []⟩ := by
  refine ⟨by decide, by decide, by decide, by decide⟩

lemma getD_sep_free {sep : Char} (l : JStr) (n : Nat) :
    sep ∉ (splitOnChar sep l).getD n [] := by
  rw [List.getD_eq_getElem?_getD]
  cases h : (splitOnChar sep l)[n]? with
  | none => simp
  | some p =>
    simp only [Option.getD_some]
    exact mem_splitOnChar_not_sep p (List.getElem?_mem h)

lemma parse_fields {remote : SpawnResult} {input : JStr} {loc : GithubLocation}
    (hp : parseGithubParts remote input = some loc) :
    loc.owner ≠ [] ∧ loc.repo ≠ [] ∧ loc.ref ≠ [] ∧
    '/' ∉ loc.owner ∧ '/' ∉ loc.repo := by
  simp only [parseGithubParts] at hp
  split at hp
  · exact absurd hp (by simp)
  · rename_i hcond
    push_neg at hcond
    rw [Option.some_inj] at hp
    subst hp
    refine ⟨hcond.1, hcond.2, ?_, getD_sep_free _ 0, getD_sep_free _ 1⟩
    rcases hfi : (splitOnChar '/' (normalizeGithubInput input)).findIdx?
        (fun p => p = jstr "tree") with _ | t
    · simp only [hfi]
      simpa using getDefaultBranch_ne_nil remote
    · simp only [hfi]
      by_cases hlen :
          (splitOnChar '/' (normalizeGithubInput input)).length > t + 1
      · simp only [if_pos hlen]
        split
        · exact getDefaultBranch_ne_nil remote
        · rename_i hne
          exact hne
      · simp only [if_neg hlen]
        simpa using getDefaultBranch_ne_nil remote

lemma repo_head_not_slash {loc : GithubLocation} (hrne : loc.repo ≠ [])
    (hrf : '/' ∉ loc.repo) :
    ∃ rc rr, loc.repo = rc :: rr ∧ ¬(rc = '/') := by
  cases hrepo : loc.repo with
  | nil => exact absurd hrepo hrne
  | cons rc rr =>
    refine ⟨rc, rr, rfl, fun hrc => hrf ?_⟩
    rw [hrepo, ← hrc]
    exact List.mem_cons_self rc rr

lemma normalize_rejoin (loc : GithubLocation)
    (hof : '/' ∉ loc.owner)
    (hrne : loc.repo ≠ []) (hrf : '/' ∉ loc.repo)
    (ho3 : loc.owner ≠ jstr "github.com")
    (hg : (jstr ".git").isSuffixOf (rejoinLocation loc) = false) :
    normalizeGithubInput (rejoinLocation loc) = rejoinLocation loc := by
  obtain ⟨rc, rr, hrepo, hrc⟩ := repo_head_not_slash hrne hrf
  have hrejoin : rejoinLocation loc =
      loc.owner ++ '/' :: (loc.repo ++ '/' :: (jstr "tree" ++ '/' :: (loc.ref ++
        (if loc.subpath = [] then [] else '/' :: loc.subpath)))) := rfl
  have hhttps : (jstr "https://github.com/").isPrefixOf (rejoinLocation loc) = false := by
    by_contra hcon
    rw [Bool.not_eq_false, List.isPrefixOf_iff_prefix] at hcon
    obtain ⟨t, ht⟩ := hcon
    rw [hrejoin] at ht
    have hshape : jstr "https:" ++ '/' :: (jstr "/github.com/" ++ t) =
        loc.owner ++ '/' :: (loc.repo ++ '/' :: (jstr "tree" ++ '/' :: (loc.ref ++
          (if loc.subpath = [] then [] else '/' :: loc.subpath)))) := by
      rw [← ht]
      rfl
    obtain ⟨_, hrest⟩ := slash_free_cons_eq (by decide) hof hshape
    rw [hrepo] at hrest
    rw [List.cons_append] at hrest
    have hhead : '/' = rc := by
      have := congrArg (fun l => l.headD ' ') hrest
      simpa using this
    exact hrc hhead.symm
  have hhttp : (jstr "http://github.com/").isPrefixOf (rejoinLocation loc) = false := by
    by_contra hcon
    rw [Bool.not_eq_false, List.isPrefixOf_iff_prefix] at hcon
    obtain ⟨t, ht⟩ := hcon
    rw [hrejoin] at ht
    have hshape : jstr "http:" ++ '/' :: (jstr "/github.com/" ++ t) =
        loc.owner ++ '/' :: (loc.repo ++ '/' :: (jstr "tree" ++ '/' :: (loc.ref ++
          (if loc.subpath = [] then [] else '/' :: loc.subpath)))) := by
      rw [← ht]
      rfl
    obtain ⟨_, hrest⟩ := slash_free_cons_eq (by decide) hof hshape
    rw [hrepo] at hrest
    rw [List.cons_append] at hrest
    have hhead : '/' = rc := by
      have := congrArg (fun l => l.headD ' ') hrest
      simpa using this
    exact hrc hhead.symm
  have hbare : (jstr "github.com/").isPrefixOf (rejoinLocation loc) = false := by
    by_contra hcon
    rw [Bool.not_eq_false, List.isPrefixOf_iff_prefix] at hcon
    obtain ⟨t, ht⟩ := hcon
    rw [hrejoin] at ht
    have hshape : jstr "github.com" ++ '/' :: t =
        loc.owner ++ '/' :: (loc.repo ++ '/' :: (jstr "tree" ++ '/' :: (loc.ref ++
          (if loc.subpath = [] then [] else '/' :: loc.subpath)))) := by
      rw [← ht]
      rfl
    obtain ⟨heq, _⟩ := slash_free_cons_eq (by decide) hof hshape
    exact ho3 heq.symm
  rw [normalizeGithubInput, stripUrlHost]
  rw [hhttps, hhttp]
  simp only [Bool.false_eq_true, if_false]
  rw [stripBareHost, hbare]
  simp only [Bool.false_eq_true, if_false]
  rw [stripGitSuffix, hg]
  simp only [Bool.false_eq_true, if_false]

lemma parse_rejoin_computation (remote' : SpawnResult) (loc : GithubLocation)
    (hnorm : normalizeGithubInput (rejoinLocation loc) = rejoinLocation loc)
    (ho1 : loc.owner ≠ jstr "tree") (ho2 : loc.repo ≠ jstr "tree")
    (hone : loc.owner ≠ []) (hrne : loc.repo ≠ [])
    (hof : '/' ∉ loc.owner) (hrf : '/' ∉ loc.repo)
    (hreff : '/' ∉ loc.ref) (hrefne : loc.ref ≠ []) :
    parseGithubParts remote' (rejoinLocation loc) = some loc := by
  obtain ⟨o, r, f, s⟩ := loc
  simp only at ho1 ho2 hone hrne hof hrf hreff hrefne
  have htree : ('/' : Char) ∉ jstr "tree" := by decide
  by_cases hsub : s = []
  · have hsplit : splitOnChar '/' (rejoinLocation ⟨o, r, f, s⟩) =
        [o, r, jstr "tree", f] := by
      rw [rejoinLocation]
      simp only [hsub, eq_self_iff_true, if_true, List.append_nil]
      rw [splitOnChar_append_cons _ hof, splitOnChar_append_cons _ hrf,
        splitOnChar_append_cons _ htree, splitOnChar_sep_free hreff]
    have hfi : ([o, r, jstr "tree", f]).findIdx?
        (fun p => p = jstr "tree") = some 2 := by
      simp [List.findIdx?_cons, ho1, ho2]
    simp only [parseGithubParts, hnorm, hsplit, hfi]
    simp [hone, hrne, hrefne, hsub, joinChar]
  · have hsplit : splitOnChar '/' (rejoinLocation ⟨o, r, f, s⟩) =
        o :: r :: jstr "tree" :: f :: splitOnChar '/' s := by
      rw [rejoinLocation]
      simp only [if_neg hsub]
      rw [splitOnChar_append_cons _ hof, splitOnChar_append_cons _ hrf,
        splitOnChar_append_cons _ htree, splitOnChar_append_cons _ hreff]
    have hfi : (o :: r :: jstr "tree" :: f :: splitOnChar '/' s).findIdx?
        (fun p => p = jstr "tree") = some 2 := by
      simp [List.findIdx?_cons, ho1, ho2]
    simp only [parseGithubParts, hnorm, hsplit, hfi]
    simp [hone, hrne, hrefne, joinChar_splitOnChar]

/-- C4 (amended): re-parsing the normalized `tree`-form re-join of a
successful parse returns the same `{owner, repo, ref, subpath}` provided
neither `owner` nor `repo` is the literal segment `tree`, `owner` is not
`github.com`, the resolved `ref` contains no `/`, and the re-joined
string does not end in `.git`.  (The C4 counterexample shows the side
conditions are needed: a repository literally named `tree` breaks
idempotence.) -/
theorem parse_rejoin_idempotent (remote remote' : SpawnResult) (input : JStr)
    (loc : GithubLocation)
    (hp : parseGithubParts remote input = some loc)
    (ho1 : loc.owner ≠ jstr "tree") (ho2 : loc.repo ≠ jstr "tree")
    (ho3 : loc.owner ≠ jstr "github.com")
    (hr : '/' ∉ loc.ref)
    (hg : (jstr ".git").isSuffixOf (rejoinLocation loc) = false) :
    parseGithubParts remote' (rejoinLocation loc) = some loc := by
  obtain ⟨hone, hrne, hrefne, hof, hrf⟩ := parse_fields hp
  exact parse_rejoin_computation remote' loc
    (normalize_rejoin loc hof hrne hrf ho3 hg) ho1 ho2 hone hrne hof hrf hr hrefne

/-- Witness for `parse_rejoin_idempotent` at the concrete input
`o/r/tree/main/sub`. -/
theorem parse_rejoin_idempotent_witness :
    parseGithubParts ⟨1, []⟩ (jstr "o/r/tree/main/sub") =
      some ⟨jstr "o", jstr "r", jstr "main", jstr "sub"⟩ ∧
    parseGithubParts ⟨1, []⟩
        (rejoinLocation ⟨jstr "o", jstr "r", jstr "main", jstr "sub"⟩) =
      some ⟨jstr "o", jstr "r", jstr "main", jstr "sub"⟩ :=
  ⟨by decide,
    parse_rejoin_idempotent ⟨1, []⟩ ⟨1, []⟩ (jstr "o/r/tree/main/sub")
      ⟨jstr "o", jstr "r", jstr "main", jstr "sub"⟩
      (by decide) (by decide) (by decide) (by decide) (by decide) (by decide)⟩

/-! ## Filesystem effect model

Stateful functions of the installer are modelled as pure functions
returning the ordered list of filesystem mutations they perform.
Read-only operations (`existsSync`, `readdirSync`, `lstatSync`,
`readlinkSync`, prompts, console/log output) are not mutations and are
passed in as parameters. -/

/-- A canonical absolute filesystem path, as its list of segments. -/
abbrev SegPath := List String

/-- `path.join(dir, name)` for a single plain entry name. -/
def pathJoin (p : SegPath) (name : String) : SegPath := p ++ [name]

/-- One filesystem mutation performed through the `fs` module. -/
inductive FsEffect where
  /-- `fs.mkdirSync(p, {recursive: true})` -/
  | mkdirp (p : SegPath)
  /-- `fs.writeFileSync(p, ...)` -/
  | writeFile (p : SegPath)
  /-- `fs.rmSync(p, {recursive: true, force: true})` -/
  | rm (p : SegPath)
  /-- `fs.cpSync(src, dest, {recursive: true})` -/
  | cp (src dest : SegPath)
  /-- `fs.symlinkSync(target, link)` -/
  | symlink (target link : SegPath)
deriving DecidableEq, Repr

/-- The log file name `install-<stamp>.log` built in `initLog`. -/
def logFileName (stamp : String) : String := "install-" ++ stamp ++ ".log"

/-- `initLog` from the source as its effect trace: create the log
directory, write the fresh (empty) log file, then delete every other
`install-*.log` entry of the directory (`dirEntries` is what
`fs.readdirSync(LOG_DIR)` reports).  Note that `initLog` is called by
`main` before parsing, unconditionally — the dry-run flag is never
consulted. -/
def initLog (logDir : SegPath) (stamp : String) (dirEntries : List String) :
    List FsEffect :=
  FsEffect.mkdirp logDir ::
  FsEffect.writeFile (pathJoin logDir (logFileName stamp)) ::
  (dirEntries.filter (fun f =>
      (jstr "install-").isPrefixOf f.toList && (jstr ".log").isSuffixOf f.toList &&
        f != logFileName stamp)).map
    (fun f => FsEffect.rm (pathJoin logDir f))

/-- What `handleConflict(dest)` returns to `copySkill`: `''` when `dest`
does not exist, `'__overwrite__'`, or a non-empty rename target (the
empty-rename and invalid-answer paths end in `process.exit(1)` or
re-prompt and never return another value). -/
inductive ConflictOutcome where
  | noConflict
  | overwrite
  | rename (n : String)
deriving DecidableEq, Repr

/-- `copySkill` from the source as its effect trace.  The
`fs.mkdirSync(destRoot, {recursive: true})` on its first line runs
before the dry-run check; the conflict removal and the copy are guarded
by `dryRun`. -/
def copySkill (dry : Bool) (src destRoot : SegPath) (skillName : String)
    (co : ConflictOutcome) : List FsEffect :=
  FsEffect.mkdirp destRoot ::
  (match co with
   | .overwrite =>
     (if dry then [] else [FsEffect.rm (pathJoin destRoot skillName)]) ++
     (if dry then [] else [FsEffect.cp src (pathJoin destRoot skillName)])
   | .rename n =>
     if dry then [] else [FsEffect.cp src (pathJoin destRoot n)]
   | .noConflict =>
     if dry then [] else [FsEffect.cp src (pathJoin destRoot skillName)])

/-! ## Link-state classification (`isSkillsLinked`) -/

/-- The fixed set of supported tools (`TOOLS` in the source). -/
inductive Tool where
  | copilot
  | claude
  | codex
  | opencode
  | gemini
deriving DecidableEq, Repr

/-- `getToolSkillsPath` from the source: the per-tool skills directory
under the home directory. -/
def getToolSkillsPath (home : SegPath) : Tool → SegPath
  | .claude => home ++ [".claude", "skills"]
  | .copilot => home ++ [".copilot", "skills"]
  | .codex => home ++ [".codex", "skills"]
  | .opencode => home ++ [".opencode", "skills"]
  | .gemini => home ++ [".gemini", "skills"]

/-- `getAgentsSkillsRoot` from the source: `~/.agents/skills`. -/
def getAgentsSkillsRoot (home : SegPath) : SegPath :=
  home ++ [".agents", "skills"]

/-- One segment of a raw (unresolved) link-target path: a plain name,
`.` or `..`. -/
inductive LinkSeg where
  | name (s : String)
  | dot
  | dotdot
deriving DecidableEq, Repr

/-- `path.resolve` of raw segments against a canonical base: `.` is
dropped, `..` pops a segment (staying at the root when empty). -/
def resolveSegs (base : SegPath) (segs : List LinkSeg) : SegPath :=
  segs.foldl (fun acc sg =>
    match sg with
    | .name n => acc ++ [n]
    | .dot => acc
    | .dotdot => acc.dropLast) base

/-- The raw string `fs.readlinkSync` reports: an absolute or a relative
path, as raw segments. -/
inductive LinkTarget where
  | abs (segs : List LinkSeg)
  | rel (segs : List LinkSeg)
deriving DecidableEq, Repr

/-- `resolveLinkTarget` from the source: absolute targets are resolved
directly, relative ones against `path.dirname(linkPath)`. -/
def resolveLinkTarget (linkPath : SegPath) : LinkTarget → SegPath
  | .abs segs => resolveSegs [] segs
  | .rel segs => resolveSegs linkPath.dropLast segs

/-- The filesystem facts `isSkillsLinked` consults about the tool skills
path: `fs.existsSync` (which follows symlinks, so a dangling symlink
reports `false`), `fs.lstatSync` (`none` models a throw, `some b` gives
`isSymbolicLink()`), and `fs.readlinkSync` (`none` models a throw). -/
structure ToolPathState where
  existsFollowingLinks : Bool
  lstat : Option Bool
  readlink : Option LinkTarget
deriving DecidableEq, Repr

/-- `isSkillsLinked` from the source: `false` when the path does not
exist (following links) or is not a symlink or any step throws (the
`catch` branch); `true` exactly when the resolved link target equals the
shared agents skills root. -/
def isSkillsLinked (home : SegPath) (tool : Tool) (st : ToolPathState) : Bool :=
  if !st.existsFollowingLinks then false
  else
    match st.lstat with
    | none => false
    | some isLink =>
      if !isLink then false
      else
        match st.readlink with
        | none => false
        | some target =>
          decide (resolveLinkTarget (getToolSkillsPath home tool) target =
            getAgentsSkillsRoot home)

/-- `linkSkillsDir` from the source as its effect trace.  `existsAtPath`
is what `fs.existsSync(toolSkillsPath)` reports inside `linkSkillsDir`,
`userReplace` the `confirm()` answer when the path exists. -/
def linkSkillsDir (dry : Bool) (home : SegPath) (tool : Tool)
    (st : ToolPathState) (existsAtPath userReplace : Bool) : List FsEffect :=
  let toolSkillsPath := getToolSkillsPath home tool
  let agentsRoot := getAgentsSkillsRoot home
  if isSkillsLinked home tool st then []
  else if existsAtPath && !userReplace then []
  else
    (if existsAtPath && !dry then [FsEffect.rm toolSkillsPath] else []) ++
    (if dry then []
     else [FsEffect.mkdirp toolSkillsPath.dropLast,
           FsEffect.symlink agentsRoot toolSkillsPath])

/-! ## Repository fetch strategies (`cloneRepo`) -/

/-- Exit outcomes of the five `spawnSync('git', ...)` steps run by
`cloneRepoSparse` (`true` = exit status 0): `git init`, `git remote add
origin`, `git sparse-checkout init --cone`, `git sparse-checkout set
<subpath>`, `git pull --depth=1 origin <ref>`. -/
structure SparseSteps where
  initRepo : Bool
  remoteAdd : Bool
  sparseInit : Bool
  sparseSet : Bool
  pull : Bool
deriving DecidableEq, Repr

/-- `cloneRepoSparse` from the source: runs the five steps in order and
returns `false` as soon as one exits non-zero, `true` when all succeed. -/
def cloneRepoSparse (s : SparseSteps) : Bool :=
  s.initRepo && s.remoteAdd && s.sparseInit && s.sparseSet && s.pull

/-- How a clone attempt ends: normal return, or
`logError(...); process.exit(1)` inside `cloneRepoFull`. -/
inductive CloneOutcome where
  | ok
  | fatalExit (code : Nat)
deriving DecidableEq, Repr

/-- `cloneRepoFull` from the source: a single full clone; a non-zero exit
status of the `git clone` subprocess is fatal (`process.exit(1)`). -/
def cloneRepoFull (fullOk : Bool) : CloneOutcome :=
  if fullOk then .ok else .fatalExit 1

/-- The observable summary of one `cloneRepo` call: whether the narrow
(sparse-checkout) strategy was attempted, how many times `cloneRepoFull`
ran, the mutations `cloneRepo` itself performs outside the git
subprocesses (the `fs.rmSync(dest, ...)` cleanup of the failed sparse
scratch directory), and the final outcome. -/
structure CloneRun where
  sparseAttempted : Bool
  fullAttempts : Nat
  effects : List FsEffect
  outcome : CloneOutcome
deriving DecidableEq, Repr

/-- `cloneRepo` from the source: narrow strategy if and only if the
subpath is non-empty and sparse-checkout is supported; on narrow failure
the scratch directory is removed and the full strategy runs; otherwise
the full strategy runs directly. -/
def cloneRepo (subpathNonEmpty sparseSupport : Bool) (sparse : SparseSteps)
    (fullOk : Bool) (dest : SegPath) : CloneRun :=
  if subpathNonEmpty && sparseSupport then
    if cloneRepoSparse sparse then
      ⟨true, 0, [], .ok⟩
    else
      ⟨true, 1, [FsEffect.rm dest], cloneRepoFull fullOk⟩
  else
    ⟨false, 1, [], cloneRepoFull fullOk⟩

/-! ## Uninstall deletion loop (`runUninstall`) -/

/-- The deletion loop at the end of `runUninstall`, over the selected
candidate paths.  `rmOk p = false` models `fs.rmSync(p, ...)` throwing
(e.g. a permission error); since the loop has no `try`/`catch`, the
exception aborts the loop and propagates to the `main().catch` handler,
which logs it and exits non-zero.  The result is the list of
successfully deleted paths in order, and `true` iff the loop ran to
completion. -/
def runUninstallDeletions (dry : Bool) (rmOk : SegPath → Bool) :
    List SegPath → List SegPath × Bool
  | [] => ([], true)
  | p :: rest =>
    if dry then runUninstallDeletions dry rmOk rest
    else if rmOk p then
      let r := runUninstallDeletions dry rmOk rest
      (p :: r.1, r.2)
    else ([], false)

/-! ## TreeNavigator (`selectDirectoryStepwise`) -/

/-- One decoded operator answer at the navigation prompt:
`"."`/`""`, `".."`, `"s"`/`"S"`, `"q"`/`"Q"`, an in-or-out-of-range
integer, or anything else. -/
inductive NavInput where
  | dot
  | dotdot
  | skipLevel
  | quit
  | num (n : Nat)
  | other
deriving DecidableEq, Repr

/-- What one dispatch of the prompt answer does. -/
inductive NavStep where
  | selected (p : SegPath)
  | cont (p : SegPath)
  | cancelled
deriving DecidableEq, Repr

/-- The answer-dispatch part of the `selectDirectoryStepwise` loop body,
given the sorted subdirectory names `dirs` of `current` (non-empty, or
the loop would have auto-selected before prompting).  Paths are
canonical, so the `path.resolve` comparison with the base is equality
and `path.dirname` is `dropLast`. -/
def navHandleChoice (basePath current : SegPath) (dirs : List String)
    (inp : NavInput) : NavStep :=
  match inp with
  | .dot => .selected current
  | .dotdot =>
    if current = basePath then .cont current
    else .cont current.dropLast
  | .skipLevel =>
    if dirs.length = 1 then .cont (current ++ [dirs.headD ""])
    else .cont current
  | .quit => .cancelled
  | .num n =>
    if 1 ≤ n ∧ n ≤ dirs.length then .cont (current ++ [dirs.getD (n - 1) ""])
    else .cont current
  | .other => .cont current

/-- How a navigation session ends: a selected directory, user quit
(`process.exit(1)`), a fatal missing-path check (`process.exit(1)`), or
the scripted input list ran out with the loop still waiting. -/
inductive NavOutcome where
  | selected (p : SegPath)
  | cancelled
  | fatal
  | pending (p : SegPath)
deriving DecidableEq, Repr

/-- `selectDirectoryStepwise` from the source over a scripted input
list.  `fs p` is `none` when `p` is missing or not a directory (the
fatal check at the top of each iteration) and otherwise the sorted list
of direct subdirectory names; an empty list auto-selects `current`
before any prompt. -/
def selectDirectoryStepwise (fs : SegPath → Option (List String))
    (basePath : SegPath) : List NavInput → SegPath → NavOutcome
  | inputs, current =>
    match fs current with
    | none => .fatal
    | some dirs =>
      if dirs = [] then .selected current
      else
        match inputs with
        | [] => .pending current
        | inp :: rest =>
          match navHandleChoice basePath current dirs inp with
          | .selected p => .selected p
          | .cancelled => .cancelled
          | .cont p => selectDirectoryStepwise fs basePath rest p

/-! ## Git version probe (`getGitVersion`, `supportsSparseCheckout`) -/

/-- The `\d+` parts of the version regex: the maximal run of decimal
digits at the front. -/
def takeDigits (l : JStr) : JStr := l.takeWhile (fun c => c.isDigit)

/-- `parseInt(s, 10)` for a non-empty digit string. -/
def digitsToNat (l : JStr) : Nat :=
  l.foldl (fun acc c => acc * 10 + (c.toNat - '0'.toNat)) 0

/-- Leftmost match of the regex `git version (\d+)\.(\d+)` used by
`getGitVersion`: the literal `git version ` followed by one-or-more
digits, a dot, and one-or-more digits; the two captured digit groups are
returned as numbers. -/
def matchGitVersion : JStr → Option (Nat × Nat)
  | [] => none
  | c :: cs =>
    if (jstr "git version ").isPrefixOf (c :: cs) then
      let rest := (c :: cs).drop (jstr "git version ").length
      let maj := takeDigits rest
      if maj = [] then matchGitVersion cs
      else
        match rest.drop maj.length with
        | '.' :: rest2 =>
          let minor := takeDigits rest2
          if minor = [] then matchGitVersion cs
          else some (digitsToNat maj, digitsToNat minor)
        | _ => matchGitVersion cs
    else matchGitVersion cs

/-- `getGitVersion` from the source: on a zero exit status and a regex
match, the parsed `{major, minor}`; in every other case `{0, 0}`. -/
def getGitVersion (res : SpawnResult) : Nat × Nat :=
  if res.status = 0 then
    match matchGitVersion res.stdout with
    | some mm => mm
    | none => (0, 0)
  else (0, 0)

/-- `supportsSparseCheckout` from the source: git ≥ 2.25. -/
def supportsSparseCheckout (res : SpawnResult) : Bool :=
  let version := getGitVersion res
  decide (version.1 > 2) || (decide (version.1 = 2) && decide (version.2 ≥ 25))

/-! ## Theorems about the effect model -/

/-- C9: `isSkillsLinked` is a total Boolean classification that never
propagates an error: it reports `true` exactly when the tool skills path
exists (existence being checked by following links, so a dangling
symlink reports `false`), `lstat` succeeds and classifies it as a
symbolic link, `readlink` succeeds, and the resolved absolute link
target equals the shared agents skills root; in every other case —
missing path, non-symlink, or a throwing `lstat`/`readlink` — it
reports `false`. -/
theorem isSkillsLinked_characterization (home : SegPath) (tool : Tool)
    (st : ToolPathState) :
    isSkillsLinked home tool st = true ↔
      st.existsFollowingLinks = true ∧ st.lstat = some true ∧
        ∃ target, st.readlink = some target ∧
          resolveLinkTarget (getToolSkillsPath home tool) target =
            getAgentsSkillsRoot home := by
  obtain ⟨e, ls, rl⟩ := st
  simp only [isSkillsLinked]
  cases e with
  | false => simp
  | true =>
    cases ls with
    | none => simp
    | some b =>
      cases b with
      | false => simp
      | true =>
        cases rl with
        | none => simp
        | some target => simp

/-- C6: running the mapper (`linkSkillsDir`) against a target already
classified as mapped — `isSkillsLinked` reports `true`, i.e. the tool
skills path is a symlink whose resolved absolute target equals the
shared store root — performs zero filesystem mutations, for every
dry-run setting and every answer the user could give. -/
theorem linkSkillsDir_mapped_noop (dry : Bool) (home : SegPath) (tool : Tool)
    (st : ToolPathState) (existsAtPath userReplace : Bool)
    (h : isSkillsLinked home tool st = true) :
    linkSkillsDir dry home tool st existsAtPath userReplace = [] := by
  simp [linkSkillsDir, h]

/-- Witness for `linkSkillsDir_mapped_noop`: a tool skills path that is a
symlink resolving to `~/.agents/skills`. -/
theorem linkSkillsDir_mapped_noop_witness :
    isSkillsLinked ["home"] Tool.claude
        ⟨true, some true,
          some (LinkTarget.abs
            [LinkSeg.name "home", LinkSeg.name ".agents", LinkSeg.name "skills"])⟩ =
      true ∧
    linkSkillsDir false ["home"] Tool.claude
        ⟨true, some true,
          some (LinkTarget.abs
            [LinkSeg.name "home", LinkSeg.name ".agents", LinkSeg.name "skills"])⟩
        true true = [] :=
  ⟨by decide,
    linkSkillsDir_mapped_noop false ["home"] Tool.claude
      ⟨true, some true,
        some (LinkTarget.abs
          [LinkSeg.name "home", LinkSeg.name ".agents", LinkSeg.name "skills"])⟩
      true true (by decide)⟩

/-- C1 counterexample: with the dry-run flag set, the install flow still
mutates the filesystem.  `copySkill` unconditionally creates the
destination root directory before its dry-run check, and `initLog`
(called by `main` before parsing, with no dry-run guard) creates the log
directory, writes the fresh log file and deletes the previous one. -/
theorem dryRun_install_still_mutates :
    copySkill true ["tmp", "scratch", "skill"] ["home", ".agents", "skills"]
        "skill" ConflictOutcome.noConflict =
      [FsEffect.mkdirp ["home", ".agents", "skills"]] ∧
    copySkill true ["tmp", "scratch", "skill"] ["home", ".agents", "skills"]
        "skill" ConflictOutcome.noConflict ≠ [] ∧
    initLog ["home", ".expcat-skills", "logs"] "20260101-000000Z"
        ["install-20251231-000000Z.log"] =
      [FsEffect.mkdirp ["home", ".expcat-skills", "logs"],
       FsEffect.writeFile
         ["home", ".expcat-skills", "logs", "install-20260101-000000Z.log"],
       FsEffect.rm
         ["home", ".expcat-skills", "logs", "install-20251231-000000Z.log"]] ∧
    initLog ["home", ".expcat-skills", "logs"] "20260101-000000Z"
        ["install-20251231-000000Z.log"] ≠ [] := by
  refine ⟨rfl, by decide, by decide, by decide⟩

/-- C1 (amended): in dry-run mode every mutation of the action layer is
suppressed — `copySkill` performs no removal and no copy (only its
unconditional `mkdirSync(destRoot)` remains), `linkSkillsDir` performs
no removal, parent creation or symlink creation, and the uninstall
deletion loop deletes nothing — while log initialization and the scratch
clone still mutate the filesystem (see the counterexample). -/
theorem dryRun_suppresses_action_mutations :
    (∀ (src destRoot : SegPath) (skillName : String) (co : ConflictOutcome),
      copySkill true src destRoot skillName co = [FsEffect.mkdirp destRoot]) ∧
    (∀ (home : SegPath) (tool : Tool) (st : ToolPathState)
        (existsAtPath userReplace : Bool),
      linkSkillsDir true home tool st existsAtPath userReplace = []) ∧
    (∀ (rmOk : SegPath → Bool) (sel : List SegPath),
      runUninstallDeletions true rmOk sel = ([], true)) := by
  refine ⟨?_, ?_, ?_⟩
  · intro src destRoot skillName co
    cases co <;> simp [copySkill]
  · intro home tool st existsAtPath userReplace
    simp only [linkSkillsDir]
    split
    · rfl
    · split
      · rfl
      · simp
  · intro rmOk sel
    induction sel with
    | nil => rfl
    | cons p rest ih => simp [runUninstallDeletions, ih]

/-- C2: whenever the narrow strategy is attempted (non-empty subpath and
sparse-checkout support) and fails at any step, `cloneRepo` removes the
scratch directory and runs the full clone exactly once; a failure of
that full clone is the fatal `process.exit(1)`; and on every code path
at most one full-clone attempt happens. -/
theorem cloneRepo_single_fallback (subpathNonEmpty sparseSupport : Bool)
    (sparse : SparseSteps) (fullOk : Bool) (dest : SegPath)
    (hs : subpathNonEmpty = true) (hsup : sparseSupport = true)
    (hfail : cloneRepoSparse sparse = false) :
    (cloneRepo subpathNonEmpty sparseSupport sparse fullOk dest).effects =
      [FsEffect.rm dest] ∧
    (cloneRepo subpathNonEmpty sparseSupport sparse fullOk dest).fullAttempts = 1 ∧
    (fullOk = false →
      (cloneRepo subpathNonEmpty sparseSupport sparse fullOk dest).outcome =
        CloneOutcome.fatalExit 1) ∧
    (∀ (sub2 sup2 : Bool) (s2 : SparseSteps) (f2 : Bool) (d2 : SegPath),
      (cloneRepo sub2 sup2 s2 f2 d2).fullAttempts ≤ 1) := by
  subst hs
  subst hsup
  refine ⟨by simp [cloneRepo, hfail], by simp [cloneRepo, hfail], ?_, ?_⟩
  · intro hf
    simp [cloneRepo, hfail, cloneRepoFull, hf]
  · intro sub2 sup2 s2 f2 d2
    unfold cloneRepo
    split_ifs <;> simp

/-- Witness for `cloneRepo_single_fallback`: the sparse pull step fails
and the subsequent full clone fails too. -/
theorem cloneRepo_single_fallback_witness :
    (true : Bool) = true ∧ (true : Bool) = true ∧
    cloneRepoSparse ⟨true, true, true, true, false⟩ = false ∧
    ((cloneRepo true true ⟨true, true, true, true, false⟩ false
        ["tmp", "scratch"]).effects = [FsEffect.rm ["tmp", "scratch"]] ∧
      (cloneRepo true true ⟨true, true, true, true, false⟩ false
        ["tmp", "scratch"]).fullAttempts = 1 ∧
      ((false : Bool) = false →
        (cloneRepo true true ⟨true, true, true, true, false⟩ false
          ["tmp", "scratch"]).outcome = CloneOutcome.fatalExit 1) ∧
      (∀ (sub2 sup2 : Bool) (s2 : SparseSteps) (f2 : Bool) (d2 : SegPath),
        (cloneRepo sub2 sup2 s2 f2 d2).fullAttempts ≤ 1)) :=
  ⟨rfl, rfl, by decide,
    cloneRepo_single_fallback true true ⟨true, true, true, true, false⟩ false
      ["tmp", "scratch"] rfl rfl (by decide)⟩

/-- C5 counterexample: the uninstall deletion loop has no per-item
`try`/`catch`, so one candidate's `fs.rmSync` throwing aborts the loop:
with `rmSync` failing on `skills/a` and succeeding on `skills/b`, the
run over the selection `[skills/a, skills/b]` deletes nothing and does
not complete — the remaining candidate `skills/b` is not deleted even
though its own deletion would have succeeded. -/
theorem uninstall_failure_stops_loop :
    runUninstallDeletions false (fun p => !(p == ["skills", "a"]))
        [["skills", "a"], ["skills", "b"]] = ([], false) ∧
    (fun (p : SegPath) => !(p == ["skills", "a"])) ["skills", "b"] = true ∧
    ["skills", "b"] ∉
      (runUninstallDeletions false (fun p => !(p == ["skills", "a"]))
        [["skills", "a"], ["skills", "b"]]).1 := by
  refine ⟨by decide, by decide, by decide⟩

/-- C5 (amended): the deletion loop is sequential with no per-item
isolation: the candidates before the first failing one are deleted, the
exception from the failing one aborts the loop (so it does not run to
completion — the error propagates to the top-level handler, which logs
it and exits non-zero), and every candidate after the failure is left
undeleted. -/
theorem uninstall_failure_aborts_remaining (rmOk : SegPath → Bool)
    (xs ys : List SegPath) (p : SegPath)
    (hxs : ∀ x ∈ xs, rmOk x = true) (hp : rmOk p = false) :
    runUninstallDeletions false rmOk (xs ++ p :: ys) = (xs, false) := by
  induction xs with
  | nil => simp [runUninstallDeletions, hp]
  | cons a as ih =>
    have ha : rmOk a = true := hxs a (List.mem_cons_self a as)
    have ih2 := ih (fun x hx => hxs x (List.mem_cons_of_mem a hx))
    simp [runUninstallDeletions, ha, ih2]

/-- Witness for `uninstall_failure_aborts_remaining`: the second of three
candidates fails; only the first is deleted, the third is skipped. -/
theorem uninstall_failure_aborts_remaining_witness :
    (∀ x ∈ [(["skills", "a"] : SegPath)],
      (fun (p : SegPath) => !(p == ["skills", "b"])) x = true) ∧
    (fun (p : SegPath) => !(p == ["skills", "b"])) ["skills", "b"] = false ∧
    runUninstallDeletions false (fun p => !(p == ["skills", "b"]))
        ([["skills", "a"]] ++ ["skills", "b"] :: [["skills", "c"]]) =
      ([["skills", "a"]], false) :=
  ⟨by decide, by decide,
    uninstall_failure_aborts_remaining (fun p => !(p == ["skills", "b"]))
      [["skills", "a"]] [["skills", "c"]] ["skills", "b"]
      (by decide) (by decide)⟩

/-- C10: when `git --version` fails or its output does not match
`git version <major>.<minor>`, the version is `{0, 0}`,
sparse-checkout support is reported `false`, and `cloneRepo` never
attempts the narrow strategy even for a non-empty subpath — the full
clone runs directly, exactly once. -/
theorem unparsable_git_version_full_clone (res : SpawnResult)
    (h : res.status ≠ 0 ∨ matchGitVersion res.stdout = none) :
    getGitVersion res = (0, 0) ∧
    supportsSparseCheckout res = false ∧
    ∀ (subpathNonEmpty : Bool) (sparse : SparseSteps) (fullOk : Bool)
        (dest : SegPath),
      (cloneRepo subpathNonEmpty (supportsSparseCheckout res) sparse fullOk
          dest).sparseAttempted = false ∧
      (cloneRepo subpathNonEmpty (supportsSparseCheckout res) sparse fullOk
          dest).fullAttempts = 1 ∧
      (cloneRepo subpathNonEmpty (supportsSparseCheckout res) sparse fullOk
          dest).outcome = cloneRepoFull fullOk := by
  have hv : getGitVersion res = (0, 0) := by
    unfold getGitVersion
    rcases h with hst | hm
    · rw [if_neg hst]
    · split
      · rw [hm]
      · rfl
  have hsup : supportsSparseCheckout res = false := by
    simp [supportsSparseCheckout, hv]
  refine ⟨hv, hsup, ?_⟩
  intro subpathNonEmpty sparse fullOk dest
  rw [hsup]
  simp [cloneRepo]

/-- Witness for `unparsable_git_version_full_clone`: a probe that exits 0
but prints a string the version regex does not match. -/
theorem unparsable_git_version_full_clone_witness :
    (((⟨0, jstr "git wersion 2.30"⟩ : SpawnResult).status ≠ 0) ∨
      matchGitVersion (⟨0, jstr "git wersion 2.30"⟩ : SpawnResult).stdout = none) ∧
    (getGitVersion ⟨0, jstr "git wersion 2.30"⟩ = (0, 0) ∧
      supportsSparseCheckout ⟨0, jstr "git wersion 2.30"⟩ = false ∧
      ∀ (subpathNonEmpty : Bool) (sparse : SparseSteps) (fullOk : Bool)
          (dest : SegPath),
        (cloneRepo subpathNonEmpty
            (supportsSparseCheckout ⟨0, jstr "git wersion 2.30"⟩) sparse fullOk
            dest).sparseAttempted = false ∧
        (cloneRepo subpathNonEmpty
            (supportsSparseCheckout ⟨0, jstr "git wersion 2.30"⟩) sparse fullOk
            dest).fullAttempts = 1 ∧
        (cloneRepo subpathNonEmpty
            (supportsSparseCheckout ⟨0, jstr "git wersion 2.30"⟩) sparse fullOk
            dest).outcome = cloneRepoFull fullOk) :=
  ⟨Or.inr (by decide),
    unparsable_git_version_full_clone ⟨0, jstr "git wersion 2.30"⟩
      (Or.inr (by decide))⟩

lemma navHandleChoice_selected_eq {basePath cur : SegPath} {dirs : List String}
    {inp : NavInput} {q : SegPath}
    (h : navHandleChoice basePath cur dirs inp = NavStep.selected q) : q = cur := by
  cases inp with
  | dot =>
    simp [navHandleChoice] at h
    exact h.symm
  | dotdot =>
    rw [navHandleChoice] at h
    split at h <;> simp at h
  | skipLevel =>
    rw [navHandleChoice] at h
    split at h <;> simp at h
  | quit => simp [navHandleChoice] at h
  | num n =>
    rw [navHandleChoice] at h
    split at h <;> simp at h
  | other => simp [navHandleChoice] at h

lemma navHandleChoice_cont_under {basePath cur : SegPath} {dirs : List String}
    {inp : NavInput} {q : SegPath}
    (h : navHandleChoice basePath cur dirs inp = NavStep.cont q)
    (hcur : ∃ t, cur = basePath ++ t) : ∃ t, q = basePath ++ t := by
  obtain ⟨t, ht⟩ := hcur
  cases inp with
  | dot => simp [navHandleChoice] at h
  | quit => simp [navHandleChoice] at h
  | other =>
    simp [navHandleChoice] at h
    exact ⟨t, h ▸ ht⟩
  | dotdot =>
    rw [navHandleChoice] at h
    split at h
    · simp at h
      exact ⟨t, h ▸ ht⟩
    · rename_i hne
      simp at h
      cases t with
      | nil =>
        rw [List.append_nil] at ht
        exact absurd ht hne
      | cons s ts =>
        refine ⟨(s :: ts).dropLast, ?_⟩
        rw [← h, ht, List.dropLast_append_of_ne_nil _ (List.cons_ne_nil s ts)]
  | skipLevel =>
    rw [navHandleChoice] at h
    split at h <;> simp at h
    · exact ⟨t ++ [dirs.head?.getD ""], by rw [← h, ht, List.append_assoc]⟩
    · exact ⟨t, h ▸ ht⟩
  | num n =>
    rw [navHandleChoice] at h
    split at h <;> simp at h
    · exact ⟨t ++ [dirs[n - 1]?.getD ""], by rw [← h, ht, List.append_assoc]⟩
    · exact ⟨t, h ▸ ht⟩

lemma navHandleChoice_descends {basePath cur : SegPath} {dirs : List String}
    {inp : NavInput} {q : SegPath}
    (hni : inp ≠ NavInput.dotdot)
    (h : navHandleChoice basePath cur dirs inp = NavStep.cont q)
    (hq : q ≠ cur) :
    ∃ d ∈ dirs, q = cur ++ [d] := by
  cases inp with
  | dot => simp [navHandleChoice] at h
  | dotdot => exact absurd rfl hni
  | quit => simp [navHandleChoice] at h
  | other =>
    simp [navHandleChoice] at h
    exact absurd h.symm hq
  | skipLevel =>
    rw [navHandleChoice] at h
    split at h
    · rename_i hlen
      simp at h
      refine ⟨dirs.head?.getD "", ?_, h.symm⟩
      cases dirs with
      | nil => simp at hlen
      | cons d ds =>
        simp only [List.head?_cons, Option.getD_some]
        exact List.mem_cons_self d ds
    · simp at h
      exact absurd h.symm hq
  | num n =>
    rw [navHandleChoice] at h
    split at h
    · rename_i hrange
      simp at h
      have hlt : n - 1 < dirs.length := by omega
      refine ⟨dirs[n - 1]?.getD "", ?_, h.symm⟩
      rw [List.getElem?_eq_getElem hlt]
      simp only [Option.getD_some]
      exact List.getElem_mem hlt
    · simp at h
      exact absurd h.symm hq

lemma selectDirectoryStepwise_under_base
    (fs : SegPath → Option (List String)) (basePath : SegPath) :
    ∀ (inputs : List NavInput) (current : SegPath),
      (∃ t, current = basePath ++ t) →
      ∀ p,
        (selectDirectoryStepwise fs basePath inputs current =
            NavOutcome.pending p ∨
          selectDirectoryStepwise fs basePath inputs current =
            NavOutcome.selected p) →
        ∃ t, p = basePath ++ t := by
  intro inputs
  induction inputs with
  | nil =>
    intro current hcur p hp
    rw [selectDirectoryStepwise] at hp
    rcases hfs : fs current with _ | dirs <;> simp only [hfs] at hp
    · rcases hp with hp | hp <;> simp at hp
    · by_cases hd : dirs = []
      · rw [if_pos hd] at hp
        rcases hp with hp | hp <;> simp at hp
        exact hp ▸ hcur
      · rw [if_neg hd] at hp
        rcases hp with hp | hp <;> simp at hp
        exact hp ▸ hcur
  | cons inp rest ih =>
    intro current hcur p hp
    rw [selectDirectoryStepwise] at hp
    rcases hfs : fs current with _ | dirs <;> simp only [hfs] at hp
    · rcases hp with hp | hp <;> simp at hp
    · by_cases hd : dirs = []
      · rw [if_pos hd] at hp
        rcases hp with hp | hp <;> simp at hp
        exact hp ▸ hcur
      · rw [if_neg hd] at hp
        rcases hnav : navHandleChoice basePath current dirs inp
          with q | q | _ <;> simp only [hnav] at hp
        · rcases hp with hp | hp <;> simp at hp
          exact hp ▸ (navHandleChoice_selected_eq hnav ▸ hcur)
        · exact ih q (navHandleChoice_cont_under hnav hcur) p hp
        · rcases hp with hp | hp <;> simp at hp

/-- C7: the TreeNavigator state never leaves the tree rooted at the
initial `basePath`: starting from `basePath`, every state the loop can
reach (including the final selection) extends `basePath`; entering `..`
while at the navigation root leaves the state unchanged; and every
state-changing dispatch of an input other than `..` descends into a
direct subdirectory of the current state. -/
theorem treeNavigator_stays_under_base
    (fs : SegPath → Option (List String)) (basePath current : SegPath)
    (inputs : List NavInput)
    (hcur : ∃ t, current = basePath ++ t) :
    (∀ p, selectDirectoryStepwise fs basePath inputs current =
        NavOutcome.pending p → ∃ t, p = basePath ++ t) ∧
    (∀ p, selectDirectoryStepwise fs basePath inputs current =
        NavOutcome.selected p → ∃ t, p = basePath ++ t) ∧
    (∀ dirs, navHandleChoice basePath basePath dirs NavInput.dotdot =
        NavStep.cont basePath) ∧
    (∀ (cur : SegPath) (dirs : List String) (inp : NavInput) (p : SegPath),
      inp ≠ NavInput.dotdot →
      navHandleChoice basePath cur dirs inp = NavStep.cont p → p ≠ cur →
      ∃ d ∈ dirs, p = cur ++ [d]) := by
  refine ⟨?_, ?_, ?_, ?_⟩
  · intro p hp
    exact selectDirectoryStepwise_under_base fs basePath inputs current hcur p
      (Or.inl hp)
  · intro p hp
    exact selectDirectoryStepwise_under_base fs basePath inputs current hcur p
      (Or.inr hp)
  · intro dirs
    simp [navHandleChoice]
  · intro cur dirs inp p hni h hpc
    exact navHandleChoice_descends hni h hpc

/-- Witness for `treeNavigator_stays_under_base`: a two-level tree where
the operator descends once and the navigator auto-selects the leaf. -/
theorem treeNavigator_stays_under_base_witness :
    (∃ t, (["base"] : SegPath) = ["base"] ++ t) ∧
    ((∀ p, selectDirectoryStepwise
          (fun p => if p = ["base"] then some ["a"]
            else if p = ["base", "a"] then some [] else none)
          ["base"] [NavInput.num 1] ["base"] =
        NavOutcome.pending p → ∃ t, p = ["base"] ++ t) ∧
      (∀ p, selectDirectoryStepwise
          (fun p => if p = ["base"] then some ["a"]
            else if p = ["base", "a"] then some [] else none)
          ["base"] [NavInput.num 1] ["base"] =
        NavOutcome.selected p → ∃ t, p = ["base"] ++ t) ∧
      (∀ dirs, navHandleChoice ["base"] ["base"] dirs NavInput.dotdot =
          NavStep.cont ["base"]) ∧
      (∀ (cur : SegPath) (dirs : List String) (inp : NavInput) (p : SegPath),
        inp ≠ NavInput.dotdot →
        navHandleChoice ["base"] cur dirs inp = NavStep.cont p → p ≠ cur →
        ∃ d ∈ dirs, p = cur ++ [d])) :=
  ⟨⟨[], rfl⟩,
    treeNavigator_stays_under_base
      (fun p => if p = ["base"] then some ["a"]
        else if p = ["base", "a"] then some [] else none)
      ["base"] ["base"] [NavInput.num 1] ⟨[], rfl⟩⟩
